import Mathlib

/-!
Verification development for the IBM alignment-model core
(`nltk/align/ibm_model.py`): the alignment sampler (`IBMModel.sample`),
hill climbing (`IBMModel.hillclimb`), neighbor generation
(`IBMModel.neighboring`), the shared probability tables backed by Python
`defaultdict`s, and the `AlignmentInfo` value object.

Modelling conventions:
* Python floats are modelled as rationals (`ℚ`); exact float rounding is
  irrelevant to the verified properties, which concern which table value or
  which alignment is produced, not float error.
* Python lists/tuples are Lean `List`s.  A Python indexing operation that can
  raise `IndexError` is modelled with `List.get?` / `listIncr?` returning
  `Option`; functions that can raise return `Option` overall (a raised
  exception is `none`).
* Python `defaultdict` auto-vivification is modelled by state passing: a table
  read returns the value *and* the possibly grown table (`dget`).
* A Python `set` of `AlignmentInfo` (whose `__eq__`/`__hash__` look only at
  the `alignment` tuple) is modelled as a duplicate-free list with `setAdd`:
  adding an element whose `alignment` is already present keeps the old one,
  as `set.add` does.  Python set iteration order is unspecified; insertion
  order is used here.
* The abstract scoring method `IBMModel.probability` (implemented by model
  subclasses, absent from this file) is passed as an explicit function
  argument `prob : AlignmentInfo → ℚ`.
* The unbounded `while True` loop of `hillclimb` is modelled with an explicit
  fuel parameter; exhausted fuel is `none` (the loop would still be running).
-/

/-- Association-list lookup, modelling a Python `dict` read that does not
create entries (`k in d` / `d[k]` on a present key). -/
def dfind {κ β : Type} [DecidableEq κ] : List (κ × β) → κ → Option β
  | [], _ => none
  | (k', v) :: rest, k => if k' = k then some v else dfind rest k

/-- Association-list write `d[k] = v`: replaces the value of a present key in
place, otherwise appends the new key at the end (Python dicts preserve
insertion order). -/
def alistSet {κ β : Type} [DecidableEq κ] : List (κ × β) → κ → β → List (κ × β)
  | [], k, v => [(k, v)]
  | (k', v') :: rest, k, v =>
    if k' = k then (k, v) :: rest else (k', v') :: alistSet rest k v

/-- Read a key of a `defaultdict` without recording the vivification: the
stored value if present, the default otherwise.  Used to state properties;
the operational read is `dget`. -/
def dread {κ β : Type} [DecidableEq κ] (d : List (κ × β)) (k : κ) (dflt : β) : β :=
  (dfind d k).getD dflt

/-- Python `defaultdict` read `d[k]`, continued with an inner operation `f` on
the (possibly fresh) value: returns the result of `f` and the updated dict.
Reading a missing key stores the default (auto-vivification), exactly as
`collections.defaultdict.__getitem__` does. -/
def dget {κ β : Type} [DecidableEq κ] (d : List (κ × β)) (k : κ) (dflt : β)
    (f : β → ℚ × β) : ℚ × List (κ × β) :=
  let r := f (dread d k dflt)
  (r.1, alistSet d k r.2)

/-- Helper data object for training IBM Model 3 (class `AlignmentInfo`,
lines 250-287).  Fields are listed in the constructor's argument order
`AlignmentInfo(alignment, src_sentence, trg_sentence, fertility_of_i)`.
Source words are `Option String` (`none` is the NULL token at index 0);
fertility counts are `Int` because the incremental `-= 1` update in
`neighboring` can drive a stale count negative. -/
structure AlignmentInfo where
  alignment : List Nat
  src_sentence : List (Option String)
  trg_sentence : List String
  fertility_of_i : List Int
deriving DecidableEq, Repr

/-- Python `AlignmentInfo.__eq__` (line 289): equality looks only at the
`alignment` tuple. -/
def AlignmentInfo.eqA (a b : AlignmentInfo) : Bool :=
  a.alignment == b.alignment

/-- Python `AlignmentInfo.__hash__` (line 292): the hash of the `alignment`
tuple alone, modelled with the pure `Hashable` hash of the list. -/
def AlignmentInfo.hashA (a : AlignmentInfo) : UInt64 :=
  Hashable.hash a.alignment

/-- Python `set.add` for a set of `AlignmentInfo`: membership is decided by
`AlignmentInfo.__eq__`, and adding an element equal to a present one keeps
the present one. -/
def setAdd (s : List AlignmentInfo) (a : AlignmentInfo) : List AlignmentInfo :=
  if s.any (fun x => AlignmentInfo.eqA x a) then s else s ++ [a]

/-- Python `set.update`: add every element of `ns` in iteration order. -/
def setUpdate (s ns : List AlignmentInfo) : List AlignmentInfo :=
  ns.foldl setAdd s

/-- Python `xs[i] += d` on a list of ints: `none` models the `IndexError`
raised when `i` is out of range. -/
def listIncr? (xs : List Int) (i : Nat) (d : Int) : Option (List Int) :=
  match xs.get? i with
  | some v => some (xs.set i (v + d))
  | none => none

/-- A Python `for` loop threading a state, whose body can raise: `none` as
soon as one step raises, otherwise the final state. -/
def ofoldl {σ α : Type} (f : σ → α → Option σ) : σ → List α → Option σ
  | s, [] => some s
  | s, x :: xs =>
    match f s x with
    | some s' => ofoldl f s' xs
    | none => none

namespace IBMModel

/-- Minimum probability floor, `IBMModel.MIN_PROB = 1.0e-12` (line 53). -/
def MIN_PROB : ℚ := 1e-12

/-- Shape of `self.translation_table`:
`defaultdict[target word][source word] → probability` (lines 58-59). -/
abbrev TTable := List (String × List (Option String × ℚ))

/-- Shape of `self.alignment_table`:
`defaultdict[i][j][l][m] → probability` (lines 65-67). -/
abbrev ATable := List (Nat × List (Nat × List (Nat × List (Nat × ℚ))))

/-- Shape of `self.fertility_table`:
`defaultdict[fertility][source word] → probability` (lines 74-75). -/
abbrev FTable := List (Nat × List (Option String × ℚ))

instance : DecidableEq (List (Nat × ℚ)) := inferInstance

instance : DecidableEq (List (Nat × List (Nat × ℚ))) := inferInstance

instance : DecidableEq (List (Nat × List (Nat × List (Nat × ℚ)))) := inferInstance

instance : DecidableEq ATable := inferInstance

/-- Shared mutable model state created by `IBMModel.__init__` (lines 55-88):
the three probability tables and the scalar `p1`. -/
structure State where
  translation_table : TTable
  alignment_table : ATable
  fertility_table : FTable
  p1 : ℚ
deriving DecidableEq

/-- The state right after `IBMModel.__init__`: empty defaultdicts and
`p1 = 0.5` (lines 58-83). -/
def initState : State :=
  { translation_table := [], alignment_table := [], fertility_table := [], p1 := 1 / 2 }

/-- Operational read `self.translation_table[t][s]` (line 150): returns the
probability and the table as grown by defaultdict vivification. -/
def tget (tt : TTable) (t : String) (s : Option String) : ℚ × TTable :=
  dget tt t [] fun inner => dget inner s MIN_PROB fun v => (v, v)

/-- Operational read `self.alignment_table[ii][jj][l][m]` (line 151). -/
def aget (att : ATable) (i j l m : Nat) : ℚ × ATable :=
  dget att i [] fun d1 =>
    dget d1 j [] fun d2 =>
      dget d2 l [] fun d3 =>
        dget d3 m MIN_PROB fun v => (v, v)

/-- Pure observation of the translation table: the probability a lookup of
`(t, s)` yields, with absent keys read as the `MIN_PROB` floor.  This is what
a caller can observe through lookups, ignoring vivification. -/
def translationProb (tt : TTable) (t : String) (s : Option String) : ℚ :=
  dread (dread tt t []) s MIN_PROB

/-- Pure observation of the alignment/distortion table. -/
def alignmentProb (att : ATable) (i j l m : Nat) : ℚ :=
  dread (dread (dread (dread att i []) j []) l []) m MIN_PROB

/-- One move neighbor (lines 217-229): reassign target position `j` to source
position `i`; the fertility vector is updated incrementally
(`new_fertility[i] += 1; new_fertility[original_alignment[j]] -= 1`).
Out-of-range indexing raises, hence `Option`. -/
def moveNeighbor (ai : AlignmentInfo) (j i : Nat) : Option AlignmentInfo := do
  let old_i ← ai.alignment.get? j
  let f1 ← listIncr? ai.fertility_of_i i 1
  let f2 ← listIncr? f1 old_i (-1)
  pure ⟨ai.alignment.set j i, ai.src_sentence, ai.trg_sentence, f2⟩

/-- One swap neighbor (lines 236-243): exchange the source positions of
target positions `j` and `other_j`; the fertility vector is the input's,
copied unchanged. -/
def swapNeighbor (ai : AlignmentInfo) (j other_j : Nat) : Option AlignmentInfo := do
  let v_other ← ai.alignment.get? other_j
  let v_j ← ai.alignment.get? j
  pure ⟨(ai.alignment.set j v_other).set other_j v_j,
    ai.src_sentence, ai.trg_sentence, ai.fertility_of_i⟩

/-- The move half of `neighboring` (lines 215-229): for every non-pegged
target position `j` in `1..m` and every source position `i` in `0..l`, add
the move neighbor to the accumulating set.  Iterating `j0` over
`List.range m` with `j = j0 + 1` models `range(1, m + 1)`, and
`List.range (length src)` models `range(0, l + 1)` (including the empty
range when the source sentence is empty, where Python's `l` is `-1`). -/
def moveLoop (ai : AlignmentInfo) (j_pegged : Nat) (acc0 : List AlignmentInfo) :
    Option (List AlignmentInfo) :=
  ofoldl
    (fun acc j0 =>
      if j0 + 1 ≠ j_pegged then
        ofoldl
          (fun acc2 i => (moveNeighbor ai (j0 + 1) i).map fun n => setAdd acc2 n)
          acc (List.range ai.src_sentence.length)
      else pure acc)
    acc0 (List.range ai.trg_sentence.length)

/-- The swap half of `neighboring` (lines 231-244): for every ordered pair of
distinct non-pegged target positions `j`, `other_j`, add the swap neighbor. -/
def swapLoop (ai : AlignmentInfo) (j_pegged : Nat) (acc0 : List AlignmentInfo) :
    Option (List AlignmentInfo) :=
  ofoldl
    (fun acc j0 =>
      if j0 + 1 ≠ j_pegged then
        ofoldl
          (fun acc2 oj0 =>
            if oj0 + 1 ≠ j_pegged ∧ oj0 + 1 ≠ j0 + 1 then
              (swapNeighbor ai (j0 + 1) (oj0 + 1)).map fun n => setAdd acc2 n
            else pure acc2)
          acc (List.range ai.trg_sentence.length)
      else pure acc)
    acc0 (List.range ai.trg_sentence.length)

/-- `IBMModel.neighboring(alignment_info, j_pegged)` (lines 198-246): the
move neighbors are inserted first, then the swap neighbors, into one set. -/
def neighboring (ai : AlignmentInfo) (j_pegged : Nat) : Option (List AlignmentInfo) := do
  let s1 ← moveLoop ai j_pegged []
  swapLoop ai j_pegged s1

/-- The `while True` loop of `hillclimb` (lines 182-194).  One fuel unit is
one iteration of the `while` loop: scan the neighbors of the current
alignment in order, replacing the rolling current alignment by any strictly
better neighbor, and stop when a whole pass changes nothing
(`alignment == old_alignment` uses `AlignmentInfo.__eq__`, which compares the
`alignment` tuples). -/
def hillclimbLoop (prob : AlignmentInfo → ℚ) (j_pegged : Nat) :
    Nat → AlignmentInfo → Option AlignmentInfo
  | 0, _ => none
  | fuel + 1, alignment => do
    let old_alignment := alignment
    let ns ← neighboring alignment j_pegged
    let new := ns.foldl (fun cur n => if prob n > prob cur then n else cur) alignment
    if new.alignment = old_alignment.alignment then pure new
    else hillclimbLoop prob j_pegged fuel new

/-- `IBMModel.hillclimb(alignment_info, j_pegged)` (lines 168-196).  The
climbing loop runs to its fixed point (or raises / diverges), and then the
function returns `alignment_info` — the seed argument, not the climbed
alignment (line 196 is `return alignment_info`). -/
def hillclimb (fuel : Nat) (prob : AlignmentInfo → ℚ) (alignment_info : AlignmentInfo)
    (j_pegged : Nat) : Option AlignmentInfo := do
  let _ ← hillclimbLoop prob j_pegged fuel alignment_info
  pure alignment_info

/-- The inner `for ii in range(0, l + 1)` of `sample` (lines 144-154): the
model-2 greedy choice of the best source position for target position `jj`,
threading the two tables through the defaultdict reads.  `max_alignment_prob`
starts at `MIN_PROB` and `best_i` starts at `1` (lines 144-145); a strictly
greater product is required to replace them. -/
def sampleBestIStep (trg : List String) (src : List (Option String)) (jj : Nat)
    (st : (ℚ × Nat) × TTable × ATable) (ii : Nat) : (ℚ × Nat) × TTable × ATable :=
  match st with
  | ((max_ap, best_i), tt, att) =>
    let s := src.getD ii none
    let t := trg.getD (jj - 1) ""
    let pr := tget tt t s
    let ar := aget att ii jj (src.length - 1) trg.length
    let alignment_prob := pr.1 * ar.1
    if alignment_prob > max_ap then ((alignment_prob, ii), pr.2, ar.2)
    else ((max_ap, best_i), pr.2, ar.2)

/-- The inner loop of lines 144-154 as a fold of `sampleBestIStep` over
`range(0, l + 1)`. -/
def sampleBestI (tt : TTable) (att : ATable) (trg : List String)
    (src : List (Option String)) (jj : Nat) : (ℚ × Nat) × TTable × ATable :=
  (List.range src.length).foldl (sampleBestIStep trg src jj) ((MIN_PROB, 1), tt, att)

/-- The seed construction of `sample` for one pegged pair `(i, j)`
(lines 134-161): all alignments start at NULL, position `j` is pegged to `i`
with fertility 1, and every other target position `jj` gets the model-2 best
source position, with `fertility_of_i[best_i] += 1` — an indexing that can
raise (`best_i` starts at 1 even when the fertility vector has length 1). -/
def sampleSeed (tt : TTable) (att : ATable) (trg : List String)
    (src : List (Option String)) (i j : Nat) : Option (AlignmentInfo × TTable × ATable) :=
  let m := trg.length
  let alignment0 := (List.replicate (m + 1) 0).set j i
  let fertility0 := (List.replicate src.length (0 : Int)).set i 1
  (ofoldl
    (fun st jj0 =>
      match st with
      | (al, fert, tt, att) =>
        if jj0 + 1 ≠ j then
          match sampleBestI tt att trg src (jj0 + 1) with
          | ((_, best_i), tt', att') => do
            let fert' ← listIncr? fert best_i 1
            pure (al.set (jj0 + 1) best_i, fert', tt', att')
        else pure (al, fert, tt, att))
    (alignment0, fertility0, tt, att) (List.range m)).map
    fun st =>
      match st with
      | (al, fert, tt, att) => (⟨al, src, trg, fert⟩, tt, att)

/-- `IBMModel.sample(trg_sentence, src_sentence)` (lines 109-166): for every
peg `(i, j)` with `i in range(0, l + 1)` and `j in range(1, m + 1)`, build
the model-2 seed, hill climb from it, and union the neighbors of the result
into the sample set.  The two defaultdict tables are threaded through and
returned in the final state; `fertility_table` and `p1` are untouched. -/
def sample (fuel : Nat) (prob : AlignmentInfo → ℚ) (st : State)
    (trg_sentence : List String) (src_sentence : List (Option String)) :
    Option (List AlignmentInfo × State) :=
  (ofoldl
    (fun acc i =>
      ofoldl
        (fun acc2 j0 =>
          match acc2 with
          | (sampled, tt, att) => do
            let r ← sampleSeed tt att trg_sentence src_sentence i (j0 + 1)
            match r with
            | (alignment_info, tt', att') => do
              let best_alignment ← hillclimb fuel prob alignment_info (j0 + 1)
              let neighbors ← neighboring best_alignment (j0 + 1)
              pure (setUpdate sampled neighbors, tt', att'))
        acc (List.range trg_sentence.length))
    (([] : List AlignmentInfo), st.translation_table, st.alignment_table)
    (List.range src_sentence.length)).map
    fun r =>
      match r with
      | (sampled, tt, att) =>
        (sampled, { st with translation_table := tt, alignment_table := att })

end IBMModel

/-- Number of tracked target positions `p ∈ ps` whose alignment entry is `k`,
as an integer (the value a correct fertility count should have). -/
def countIn (al : List Nat) (ps : List Nat) (k : Nat) : Int :=
  ((ps.filter fun p => al.get? p == some k).length : Int)

/-- The target positions `1..m`. -/
def targetPositions (m : Nat) : List Nat :=
  (List.range m).map fun j0 => j0 + 1

/-- The documented invariant tying an `AlignmentInfo`'s fertility vector to
its alignment function: the vector has one slot per source position, sums to
the target length `m`, and slot `i` counts the target positions `1..m`
aligned to `i`. -/
def fertilityInvariant (ai : AlignmentInfo) : Prop :=
  ai.fertility_of_i.length = ai.src_sentence.length ∧
  ai.fertility_of_i.sum = (ai.trg_sentence.length : Int) ∧
  ∀ k, k < ai.fertility_of_i.length →
    ai.fertility_of_i.get? k = some (countIn ai.alignment (targetPositions ai.trg_sentence.length) k)

instance fertilityInvariant.decidable (ai : AlignmentInfo) :
    Decidable (fertilityInvariant ai) := by
  unfold fertilityInvariant
  infer_instance

/-- A constant scoring function, for concrete runs. -/
def probZero : AlignmentInfo → ℚ := fun _ => 0

/-- A second scoring function that depends on the alignment, for concrete
runs contrasting two models. -/
def probX : AlignmentInfo → ℚ := fun ai => if ai.alignment.getD 2 0 = 1 then 1 else 0

/-! ## Concrete fixtures used by witnesses and counterexamples -/

/-- A seed alignment for the sentence pair src = (NULL, "a"), trg = ("x", "y")
with both target positions aligned to NULL. -/
def wSeed : AlignmentInfo := ⟨[0, 0, 0], [none, some "a"], ["x", "y"], [2, 0]⟩

/-- The move neighbor of `wSeed` that aligns target position 2 to source
position 1. -/
def wMoved : AlignmentInfo := ⟨[0, 0, 1], [none, some "a"], ["x", "y"], [1, 1]⟩

/-- A three-target-word alignment used to exercise the swap branch. -/
def wSwapBase : AlignmentInfo :=
  ⟨[0, 1, 0, 2], [none, some "a", some "b"], ["x", "y", "z"], [1, 1, 1]⟩

/-- The swap neighbor of `wSwapBase` exchanging target positions 2 and 3. -/
def wSwapped : AlignmentInfo :=
  ⟨[0, 1, 2, 0], [none, some "a", some "b"], ["x", "y", "z"], [1, 1, 1]⟩

/-- A second constant scoring function, distinct from `probZero`, for the
independence witness. -/
def probOne : AlignmentInfo → ℚ := fun _ => 1

/-- Observational equivalence of translation tables: every lookup answers
the same. -/
def tpres (tt tt' : IBMModel.TTable) : Prop :=
  ∀ t s, IBMModel.translationProb tt' t s = IBMModel.translationProb tt t s

/-- Observational equivalence of alignment tables. -/
def apres (att att' : IBMModel.ATable) : Prop :=
  ∀ i j l m, IBMModel.alignmentProb att' i j l m = IBMModel.alignmentProb att i j l m

/-- The target positions already assigned a source position while building a
seed: the pegged position `j` plus the processed loop indices (as positions),
skipping `j` itself. -/
def seedTracked (j : Nat) (done : List Nat) : List Nat :=
  j :: (done.filter fun x => x + 1 != j).map fun x => x + 1


/-! ## Generic lemmas about the loop combinator, sets and list updates -/

theorem ofoldl_cons {σ α : Type} (f : σ → α → Option σ) (s : σ) (x : α) (xs : List α) :
    ofoldl f s (x :: xs) = (f s x).bind fun s' => ofoldl f s' xs := by
  cases h : f s x <;> simp [ofoldl, h]

theorem ofoldl_some_mem {γ α : Type} (Q : α → γ → Prop) {f : List γ → α → Option (List γ)}
    {xs : List α} {s0 out : List γ}
    (hstep : ∀ s x r, x ∈ xs → f s x = some r → ∀ y ∈ r, y ∈ s ∨ Q x y)
    (hfold : ofoldl f s0 xs = some out) :
    ∀ y ∈ out, y ∈ s0 ∨ ∃ x ∈ xs, Q x y := by
  induction xs generalizing s0 with
  | nil =>
    cases hfold
    intro y hy
    exact Or.inl hy
  | cons x xs ih =>
    intro y hy
    rw [ofoldl_cons] at hfold
    cases h1 : f s0 x with
    | none => rw [h1] at hfold; cases hfold
    | some s1 =>
      rw [h1] at hfold
      have hrec := ih (fun s a r ha => hstep s a r (List.mem_cons_of_mem _ ha)) hfold y hy
      rcases hrec with hmem | ⟨a, ha, hq⟩
      · rcases hstep s0 x s1 (List.mem_cons_self _ _) h1 y hmem with h | h
        · exact Or.inl h
        · exact Or.inr ⟨x, List.mem_cons_self _ _, h⟩
      · exact Or.inr ⟨a, List.mem_cons_of_mem _ ha, hq⟩

theorem ofoldl_rel {σ α : Type} (R : σ → σ → Prop) {f : σ → α → Option σ}
    {xs : List α} {s0 out : σ}
    (hrefl : ∀ s, R s s) (htrans : ∀ a b c, R a b → R b c → R a c)
    (hstep : ∀ s x r, x ∈ xs → f s x = some r → R s r)
    (hfold : ofoldl f s0 xs = some out) : R s0 out := by
  induction xs generalizing s0 with
  | nil => cases hfold; exact hrefl _
  | cons x xs ih =>
    rw [ofoldl_cons] at hfold
    cases h1 : f s0 x with
    | none => rw [h1] at hfold; cases hfold
    | some s1 =>
      rw [h1] at hfold
      exact htrans _ _ _ (hstep s0 x s1 (List.mem_cons_self _ _) h1)
        (ih (fun s a r ha => hstep s a r (List.mem_cons_of_mem _ ha)) hfold)

theorem ofoldl_congr_some {σ α : Type} {f g : σ → α → Option σ}
    {xs : List α} {s0 o1 o2 : σ}
    (hfg : ∀ s x r1 r2, x ∈ xs → f s x = some r1 → g s x = some r2 → r1 = r2)
    (h1 : ofoldl f s0 xs = some o1) (h2 : ofoldl g s0 xs = some o2) : o1 = o2 := by
  induction xs generalizing s0 with
  | nil => cases h1; cases h2; rfl
  | cons x xs ih =>
    rw [ofoldl_cons] at h1 h2
    cases hf : f s0 x with
    | none => rw [hf] at h1; cases h1
    | some r1 =>
      cases hg : g s0 x with
      | none => rw [hg] at h2; cases h2
      | some r2 =>
        rw [hf] at h1; rw [hg] at h2
        cases hfg s0 x r1 r2 (List.mem_cons_self _ _) hf hg
        exact ih (fun s a u v ha => hfg s a u v (List.mem_cons_of_mem _ ha)) h1 h2

theorem ofoldl_const {σ α : Type} {f : σ → α → Option σ} {xs : List α} {s0 : σ}
    (h : ∀ x ∈ xs, f s0 x = some s0) : ofoldl f s0 xs = some s0 := by
  induction xs with
  | nil => rfl
  | cons x xs ih =>
    rw [ofoldl_cons, h x (List.mem_cons_self _ _)]
    exact ih fun a ha => h a (List.mem_cons_of_mem _ ha)

theorem mem_setAdd {s : List AlignmentInfo} {a x : AlignmentInfo}
    (hx : x ∈ setAdd s a) : x ∈ s ∨ x = a := by
  unfold setAdd at hx
  split at hx
  · exact Or.inl hx
  · rcases List.mem_append.1 hx with h | h
    · exact Or.inl h
    · exact Or.inr (List.mem_singleton.1 h)

theorem mem_setUpdate {ns : List AlignmentInfo} :
    ∀ {x : AlignmentInfo} {acc : List AlignmentInfo}, x ∈ setUpdate acc ns → x ∈ acc ∨ x ∈ ns := by
  induction ns with
  | nil => intro x acc h; exact Or.inl h
  | cons n ns ih =>
    intro x acc h
    rcases ih h with h1 | h1
    · rcases mem_setAdd h1 with h2 | h2
      · exact Or.inl h2
      · exact Or.inr (h2 ▸ List.mem_cons_self _ _)
    · exact Or.inr (List.mem_cons_of_mem _ h1)

theorem listIncr?_some {xs ys : List Int} {i : Nat} {d : Int}
    (h : listIncr? xs i d = some ys) :
    ∃ v, xs.get? i = some v ∧ ys = xs.set i (v + d) := by
  unfold listIncr? at h
  cases hg : xs.get? i with
  | none => rw [hg] at h; cases h
  | some v => rw [hg] at h; cases h; exact ⟨v, rfl, rfl⟩

theorem length_listIncr? {xs ys : List Int} {i : Nat} {d : Int}
    (h : listIncr? xs i d = some ys) : ys.length = xs.length := by
  rcases listIncr?_some h with ⟨v, _, rfl⟩
  exact List.length_set xs i _

theorem sum_set_of_get? {xs : List Int} {i : Nat} {v : Int} (w : Int)
    (h : xs.get? i = some v) : (xs.set i w).sum = xs.sum - v + w := by
  induction xs generalizing i with
  | nil => cases h
  | cons x xs ih =>
    cases i with
    | zero =>
      simp only [List.get?] at h
      cases h
      simp [List.set]
      ring
    | succ n =>
      simp only [List.get?] at h
      simp [List.set, ih h]
      ring

theorem sum_listIncr? {xs ys : List Int} {i : Nat} {d : Int}
    (h : listIncr? xs i d = some ys) : ys.sum = xs.sum + d := by
  rcases listIncr?_some h with ⟨v, hv, rfl⟩
  rw [sum_set_of_get? (v + d) hv]
  ring

theorem get?_listIncr? {xs ys : List Int} {i : Nat} {d : Int}
    (h : listIncr? xs i d = some ys) (k : Nat) :
    ys.get? k = if k = i then (xs.get? k).map (· + d) else xs.get? k := by
  rcases listIncr?_some h with ⟨v, hv, rfl⟩
  by_cases hk : k = i
  · subst hk
    have hlt : k < xs.length := (List.get?_eq_some.1 hv).1
    rw [if_pos rfl, List.get?_set_eq_of_lt _ hlt, hv]
    rfl
  · rw [if_neg hk, List.get?_set_ne _ _ fun hik => hk hik.symm]

/-! ## Provenance of neighbors -/

theorem moveNeighbor_some {a : AlignmentInfo} {j i : Nat} {n : AlignmentInfo}
    (h : IBMModel.moveNeighbor a j i = some n) :
    ∃ old f1 f2, a.alignment.get? j = some old ∧
      listIncr? a.fertility_of_i i 1 = some f1 ∧
      listIncr? f1 old (-1) = some f2 ∧
      n = ⟨a.alignment.set j i, a.src_sentence, a.trg_sentence, f2⟩ := by
  simp only [IBMModel.moveNeighbor, Option.bind_eq_some, Option.pure_def,
    Option.some.injEq, bind, instMonadOption] at h
  rcases h with ⟨old, hold, f1, hf1, f2, hf2, hn⟩
  exact ⟨old, f1, f2, hold, hf1, hf2, hn.symm⟩

theorem swapNeighbor_some {a : AlignmentInfo} {j oj : Nat} {n : AlignmentInfo}
    (h : IBMModel.swapNeighbor a j oj = some n) :
    ∃ vj voj, a.alignment.get? j = some vj ∧ a.alignment.get? oj = some voj ∧
      n = ⟨(a.alignment.set j voj).set oj vj,
        a.src_sentence, a.trg_sentence, a.fertility_of_i⟩ := by
  simp only [IBMModel.swapNeighbor, Option.bind_eq_some, Option.pure_def,
    Option.some.injEq, bind, instMonadOption] at h
  rcases h with ⟨voj, hvoj, vj, hvj, hn⟩
  exact ⟨vj, voj, hvj, hvoj, hn.symm⟩

theorem moveLoop_mem {a : AlignmentInfo} {peg : Nat} {acc out : List AlignmentInfo}
    (h : IBMModel.moveLoop a peg acc = some out) :
    ∀ y ∈ out, y ∈ acc ∨ ∃ j0 i, j0 < a.trg_sentence.length ∧ j0 + 1 ≠ peg ∧
      i < a.src_sentence.length ∧ IBMModel.moveNeighbor a (j0 + 1) i = some y := by
  unfold IBMModel.moveLoop at h
  intro y hy
  have := ofoldl_some_mem
    (fun j0 y => j0 + 1 ≠ peg ∧
      ∃ i, i < a.src_sentence.length ∧ IBMModel.moveNeighbor a (j0 + 1) i = some y)
    (fun s x r hx hr => by
      split at hr
      · rename_i hxp
        intro z hz
        have := ofoldl_some_mem
          (fun i z => IBMModel.moveNeighbor a (x + 1) i = some z)
          (fun s2 i r2 hi hr2 => by
            rcases Option.map_eq_some'.1 hr2 with ⟨n, hn, rfl⟩
            intro w hw
            rcases mem_setAdd hw with h1 | h1
            · exact Or.inl h1
            · exact Or.inr (h1 ▸ hn)) hr z hz
        rcases this with h1 | ⟨i, hi, hmn⟩
        · exact Or.inl h1
        · exact Or.inr ⟨hxp, i, List.mem_range.1 hi, hmn⟩
      · cases hr
        exact fun z hz => Or.inl hz) h y hy
  rcases this with h1 | ⟨j0, hj0, hne, i, hi, hmn⟩
  · exact Or.inl h1
  · exact Or.inr ⟨j0, i, List.mem_range.1 hj0, hne, hi, hmn⟩

theorem swapLoop_mem {a : AlignmentInfo} {peg : Nat} {acc out : List AlignmentInfo}
    (h : IBMModel.swapLoop a peg acc = some out) :
    ∀ y ∈ out, y ∈ acc ∨ ∃ j0 oj0, j0 < a.trg_sentence.length ∧
      oj0 < a.trg_sentence.length ∧ j0 + 1 ≠ peg ∧ oj0 + 1 ≠ peg ∧ oj0 + 1 ≠ j0 + 1 ∧
      IBMModel.swapNeighbor a (j0 + 1) (oj0 + 1) = some y := by
  unfold IBMModel.swapLoop at h
  intro y hy
  have := ofoldl_some_mem
    (fun j0 y => j0 + 1 ≠ peg ∧
      ∃ oj0, oj0 < a.trg_sentence.length ∧ oj0 + 1 ≠ peg ∧ oj0 + 1 ≠ j0 + 1 ∧
        IBMModel.swapNeighbor a (j0 + 1) (oj0 + 1) = some y)
    (fun s x r hx hr => by
      split at hr
      · rename_i hxp
        intro z hz
        have := ofoldl_some_mem
          (fun oj0 z => oj0 + 1 ≠ peg ∧ oj0 + 1 ≠ x + 1 ∧
            IBMModel.swapNeighbor a (x + 1) (oj0 + 1) = some z)
          (fun s2 oj0 r2 hoj hr2 => by
            split at hr2
            · rename_i hcond
              rcases Option.map_eq_some'.1 hr2 with ⟨n, hn, rfl⟩
              intro w hw
              rcases mem_setAdd hw with h1 | h1
              · exact Or.inl h1
              · exact Or.inr ⟨hcond.1, hcond.2, h1 ▸ hn⟩
            · cases hr2
              exact fun w hw => Or.inl hw) hr z hz
        rcases this with h1 | ⟨oj0, hoj, hprops⟩
        · exact Or.inl h1
        · exact Or.inr ⟨hxp, oj0, List.mem_range.1 hoj, hprops.1, hprops.2.1, hprops.2.2⟩
      · cases hr
        exact fun z hz => Or.inl hz) h y hy
  rcases this with h1 | ⟨j0, hj0, hne, oj0, hoj0, hne2, hne3, hsn⟩
  · exact Or.inl h1
  · exact Or.inr ⟨j0, oj0, List.mem_range.1 hj0, hoj0, hne, hne2, hne3, hsn⟩

theorem neighboring_some {a : AlignmentInfo} {peg : Nat} {ns : List AlignmentInfo}
    (h : IBMModel.neighboring a peg = some ns) :
    ∃ s1, IBMModel.moveLoop a peg [] = some s1 ∧ IBMModel.swapLoop a peg s1 = some ns := by
  simp only [IBMModel.neighboring, Option.bind_eq_some, bind, instMonadOption] at h
  exact h

theorem neighboring_mem {a : AlignmentInfo} {peg : Nat} {ns : List AlignmentInfo}
    (h : IBMModel.neighboring a peg = some ns) :
    ∀ y ∈ ns,
      (∃ j0 i, j0 < a.trg_sentence.length ∧ j0 + 1 ≠ peg ∧
        i < a.src_sentence.length ∧ IBMModel.moveNeighbor a (j0 + 1) i = some y) ∨
      (∃ j0 oj0, j0 < a.trg_sentence.length ∧ oj0 < a.trg_sentence.length ∧
        j0 + 1 ≠ peg ∧ oj0 + 1 ≠ peg ∧ oj0 + 1 ≠ j0 + 1 ∧
        IBMModel.swapNeighbor a (j0 + 1) (oj0 + 1) = some y) := by
  rcases neighboring_some h with ⟨s1, hmv, hsw⟩
  intro y hy
  rcases swapLoop_mem hsw y hy with h1 | h1
  · rcases moveLoop_mem hmv y h1 with h2 | h2
    · cases h2
    · exact Or.inl h2
  · exact Or.inr h1

/-! ## Per-neighbor facts -/

theorem moveNeighbor_pegged {a : AlignmentInfo} {j i : Nat} {n : AlignmentInfo}
    (h : IBMModel.moveNeighbor a j i = some n) {p : Nat} (hp : p ≠ j) :
    n.alignment.get? p = a.alignment.get? p := by
  rcases moveNeighbor_some h with ⟨old, f1, f2, _, _, _, rfl⟩
  exact List.get?_set_ne _ _ fun hj => hp hj.symm

theorem swapNeighbor_pegged {a : AlignmentInfo} {j oj : Nat} {n : AlignmentInfo}
    (h : IBMModel.swapNeighbor a j oj = some n) {p : Nat} (hpj : p ≠ j) (hpo : p ≠ oj) :
    n.alignment.get? p = a.alignment.get? p := by
  rcases swapNeighbor_some h with ⟨vj, voj, _, _, rfl⟩
  rw [List.get?_set_ne _ _ fun hj => hpo hj.symm, List.get?_set_ne _ _ fun hj => hpj hj.symm]

theorem swapNeighbor_fertility {a : AlignmentInfo} {j oj : Nat} {n : AlignmentInfo}
    (h : IBMModel.swapNeighbor a j oj = some n) :
    n.fertility_of_i = a.fertility_of_i := by
  rcases swapNeighbor_some h with ⟨vj, voj, _, _, rfl⟩
  rfl

/-! ## Claim theorems -/

/-- C1: the claim says the alignment returned by `hillclimb` is a fixed point
(no neighbor strictly better).  The code instead returns the seed
`alignment_info` (line 196), not the climbed alignment: here the returned
alignment `wSeed` has the strictly better neighbor `wMoved` under the scoring
function `probX`, even though the climb had already found `wMoved`. -/
theorem hillclimb_returns_seed_not_fixed_point :
    IBMModel.hillclimb 5 probX wSeed 1 = some wSeed ∧
    IBMModel.neighboring wSeed 1 = some [wSeed, wMoved] ∧
    probX wMoved > probX wSeed := by
  refine ⟨by decide, by decide, by decide⟩

/-- C2: on the degenerate source sentence consisting only of NULL (`l = 0`)
with a two-word target sentence and the freshly initialised tables, `sample`
raises `IndexError` (modelled as `none`): `best_i` is initialised to `1`
(line 145) and `fertility_of_i[1] += 1` indexes past the end of the
length-1 fertility vector, instead of producing all-NULL alignments. -/
theorem sample_null_only_source_raises :
    IBMModel.sample 1 probZero IBMModel.initState ["x", "y"] [none] = none := by
  have hc : ¬ (IBMModel.MIN_PROB * IBMModel.MIN_PROB > IBMModel.MIN_PROB) := by
    norm_num [IBMModel.MIN_PROB]
  simp [IBMModel.sample, IBMModel.sampleSeed, IBMModel.sampleBestI, IBMModel.sampleBestIStep,
    IBMModel.tget, IBMModel.aget, dget, dread, dfind, alistSet, ofoldl, listIncr?,
    List.range_succ, hc]

/-- C5: every neighbor produced by `neighboring` leaves the pegged target
position's alignment entry unchanged: moves only touch positions `j ≠ peg`
and swaps only touch pairs of positions both different from `peg`. -/
theorem neighboring_never_moves_pegged :
    ∀ (a : AlignmentInfo) (peg : Nat) (ns : List AlignmentInfo),
      IBMModel.neighboring a peg = some ns →
      ∀ n ∈ ns, n.alignment.get? peg = a.alignment.get? peg := by
  intro a peg ns h n hn
  rcases neighboring_mem h n hn with ⟨j0, i, _, hne, _, hmn⟩ | ⟨j0, oj0, _, _, hne, hne2, _, hsn⟩
  · exact moveNeighbor_pegged hmn fun hp => hne hp.symm
  · exact swapNeighbor_pegged hsn (fun hp => hne hp.symm) fun hp => hne2 hp.symm

/-- Witness for C5 at a concrete input: the pegged position 1 of `wSeed` is
unchanged in its neighbor `wMoved`. -/
theorem neighboring_never_moves_pegged_witness :
    IBMModel.neighboring wSeed 1 = some [wSeed, wMoved] ∧
    wMoved.alignment.get? 1 = wSeed.alignment.get? 1 :=
  ⟨by decide,
    neighboring_never_moves_pegged wSeed 1 [wSeed, wMoved] (by decide) wMoved (by decide)⟩

/-- C6: every alignment added by the swap branch of `neighboring` (the loop
of lines 231-244) carries the input's fertility vector unchanged: the swap
branch copies `original_fertility` and never modifies the copy. -/
theorem swap_branch_preserves_fertility :
    ∀ (a : AlignmentInfo) (peg : Nat) (acc out : List AlignmentInfo),
      IBMModel.swapLoop a peg acc = some out →
      ∀ n ∈ out, n ∈ acc ∨ n.fertility_of_i = a.fertility_of_i := by
  intro a peg acc out h n hn
  rcases swapLoop_mem h n hn with h1 | ⟨j0, oj0, _, _, _, _, _, hsn⟩
  · exact Or.inl h1
  · exact Or.inr (swapNeighbor_fertility hsn)

/-- Witness for C6 at a concrete input: the swap neighbor `wSwapped` of
`wSwapBase` has the same fertility vector. -/
theorem swap_branch_preserves_fertility_witness :
    IBMModel.swapLoop wSwapBase 1 [] = some [wSwapped] ∧
    wSwapped.fertility_of_i = wSwapBase.fertility_of_i :=
  ⟨by decide,
    (swap_branch_preserves_fertility wSwapBase 1 [] [wSwapped] (by decide) wSwapped
      (by decide)).resolve_left (by decide)⟩

/-- C7: `AlignmentInfo` equality holds exactly when the `alignment`
sequences are equal, equal instances hash identically, and two instances
with the same alignment but different fertility vectors collapse to the
first one when added to a set. -/
theorem alignmentInfo_eq_iff_alignment_eq :
    ∀ a b : AlignmentInfo,
      (AlignmentInfo.eqA a b = true ↔ a.alignment = b.alignment) ∧
      (AlignmentInfo.eqA a b = true → AlignmentInfo.hashA a = AlignmentInfo.hashA b) ∧
      (a.alignment = b.alignment → a.fertility_of_i ≠ b.fertility_of_i →
        setAdd (setAdd [] a) b = [a]) := by
  intro a b
  refine ⟨?_, ?_, ?_⟩
  · simp [AlignmentInfo.eqA]
  · intro h
    have : a.alignment = b.alignment := by simpa [AlignmentInfo.eqA] using h
    unfold AlignmentInfo.hashA
    rw [this]
  · intro hal _
    have h1 : setAdd [] a = [a] := by simp [setAdd]
    rw [h1]
    simp [setAdd, AlignmentInfo.eqA, hal]

/-- Witness for C7 at a concrete input: same alignment, different fertility
vectors. -/
theorem alignmentInfo_eq_iff_alignment_eq_witness :
    AlignmentInfo.eqA ⟨[0, 1], [none, some "a"], ["x"], [1, 0]⟩
        ⟨[0, 1], [none, some "a"], ["x"], [0, 1]⟩ = true ∧
    AlignmentInfo.hashA ⟨[0, 1], [none, some "a"], ["x"], [1, 0]⟩ =
      AlignmentInfo.hashA ⟨[0, 1], [none, some "a"], ["x"], [0, 1]⟩ ∧
    setAdd (setAdd [] ⟨[0, 1], [none, some "a"], ["x"], [1, 0]⟩)
        ⟨[0, 1], [none, some "a"], ["x"], [0, 1]⟩ =
      [⟨[0, 1], [none, some "a"], ["x"], [1, 0]⟩] :=
  ⟨(alignmentInfo_eq_iff_alignment_eq _ _).1.mpr rfl,
    (alignmentInfo_eq_iff_alignment_eq _ _).2.1 (by decide),
    (alignmentInfo_eq_iff_alignment_eq _ _).2.2 rfl (by decide)⟩

/-- C8: a translation-table lookup for a pair `(t, s)` with no stored entry
returns exactly the floor `MIN_PROB = 1.0e-12`, which is positive (neither
zero nor an error: the lookup is total). -/
theorem translation_lookup_unseen_returns_floor :
    ∀ (tt : IBMModel.TTable) (t : String) (s : Option String),
      (dfind tt t).bind (fun inner => dfind inner s) = none →
      (IBMModel.tget tt t s).1 = IBMModel.MIN_PROB ∧
        IBMModel.MIN_PROB = 1 / 1000000000000 ∧ 0 < IBMModel.MIN_PROB := by
  intro tt t s habsent
  refine ⟨?_, by norm_num [IBMModel.MIN_PROB], by norm_num [IBMModel.MIN_PROB]⟩
  show dread (dread tt t []) s IBMModel.MIN_PROB = IBMModel.MIN_PROB
  cases hout : dfind tt t with
  | none => simp [dread, hout, dfind]
  | some inner =>
    rw [hout, Option.some_bind] at habsent
    simp [dread, hout, habsent]

/-- Witness for C8 at a concrete input: the empty table. -/
theorem translation_lookup_unseen_returns_floor_witness :
    (dfind ([] : IBMModel.TTable) "z").bind (fun inner => dfind inner none) = none ∧
    (IBMModel.tget [] "z" none).1 = IBMModel.MIN_PROB :=
  ⟨rfl, (translation_lookup_unseen_returns_floor [] "z" none rfl).1⟩

/-! ## Hill climbing and the sampler -/

theorem range_one : List.range 1 = [0] := by
  simp [List.range_succ]

theorem hillclimb_some {fuel : Nat} {p : AlignmentInfo → ℚ} {a b : AlignmentInfo} {j : Nat}
    (h : IBMModel.hillclimb fuel p a j = some b) : b = a := by
  simp only [IBMModel.hillclimb, Option.bind_eq_some, bind, instMonadOption,
    Option.pure_def, Option.some.injEq] at h
  rcases h with ⟨c, _, h⟩
  exact h.symm

theorem neighboring_single_trg {ai : AlignmentInfo} (h : ai.trg_sentence.length = 1) :
    IBMModel.neighboring ai 1 = some [] := by
  unfold IBMModel.neighboring IBMModel.moveLoop IBMModel.swapLoop
  rw [h]
  simp [ofoldl, range_one]

theorem hillclimb_single_trg {fuel : Nat} (hf : 0 < fuel) {prob : AlignmentInfo → ℚ}
    {ai : AlignmentInfo} (h : ai.trg_sentence.length = 1) :
    IBMModel.hillclimb fuel prob ai 1 = some ai := by
  cases fuel with
  | zero => cases hf
  | succ k =>
    unfold IBMModel.hillclimb IBMModel.hillclimbLoop
    rw [neighboring_single_trg h]
    simp

theorem sampleSeed_single (tt : IBMModel.TTable) (att : IBMModel.ATable)
    (t : String) (src : List (Option String)) (i : Nat) :
    IBMModel.sampleSeed tt att [t] src i 1 =
      some (⟨(List.replicate 2 0).set 1 i, src, [t],
        (List.replicate src.length (0 : Int)).set i 1⟩, tt, att) := by
  simp [IBMModel.sampleSeed, ofoldl, range_one]

theorem sample_step_single {fuel : Nat} (hf : 0 < fuel) (prob : AlignmentInfo → ℚ)
    (ai : AlignmentInfo) (h : ai.trg_sentence.length = 1)
    (sampled : List AlignmentInfo) (tt' : IBMModel.TTable) (att' : IBMModel.ATable) :
    ((IBMModel.hillclimb fuel prob ai 1).bind fun best =>
      (IBMModel.neighboring best 1).bind fun nbrs =>
        some (setUpdate sampled nbrs, tt', att')) = some (sampled, tt', att') := by
  rw [hillclimb_single_trg hf h, Option.some_bind, neighboring_single_trg h, Option.some_bind]
  rfl

/-- C10: for a target sentence of length 1, every target position is the
pegged one, so `neighboring` has nothing to enumerate, every hill climb is
stationary, and `sample` returns the empty set with the model state
untouched (no table is even read). -/
theorem sample_single_target_returns_empty :
    ∀ (src : List (Option String)) (trg : List String) (prob : AlignmentInfo → ℚ)
      (st : IBMModel.State) (fuel : Nat),
      trg.length = 1 → 0 < fuel →
      IBMModel.sample fuel prob st trg src = some ([], st) := by
  intro src trg prob st fuel h1 hf
  rcases List.length_eq_one.1 h1 with ⟨t, rfl⟩
  unfold IBMModel.sample
  rw [ofoldl_const]
  · simp
  · intro i hi
    apply ofoldl_const
    intro j0 hj0
    rw [show ([t].length) = 1 from rfl, range_one, List.mem_singleton] at hj0
    subst hj0
    show ((IBMModel.sampleSeed st.translation_table st.alignment_table [t] src i (0 + 1)).bind
      fun r => _) = _
    rw [sampleSeed_single, Option.some_bind]
    exact sample_step_single hf prob
      ⟨(List.replicate 2 0).set 1 i, src, [t], (List.replicate src.length (0 : Int)).set i 1⟩
      rfl [] st.translation_table st.alignment_table

/-- Witness for C10 at a concrete input. -/
theorem sample_single_target_returns_empty_witness :
    (["x"] : List String).length = 1 ∧ 0 < 1 ∧
    IBMModel.sample 1 probZero IBMModel.initState ["x"] [none, some "a"] =
      some ([], IBMModel.initState) :=
  ⟨rfl, Nat.one_pos,
    sample_single_target_returns_empty [none, some "a"] ["x"] probZero IBMModel.initState 1
      rfl Nat.one_pos⟩

/-- C9: the sample set does not depend on the scoring function.  Because
`hillclimb` returns its seed argument (line 196), the only consumer of
`prob` never influences the returned data: two runs of `sample` differing
only in the scoring function (and in the fuel bound, both sufficient for
their loops to finish) return equal results. -/
theorem sample_ignores_probability :
    ∀ (fuel1 fuel2 : Nat) (prob1 prob2 : AlignmentInfo → ℚ) (st : IBMModel.State)
      (trg : List String) (src : List (Option String))
      (r1 r2 : List AlignmentInfo × IBMModel.State),
      IBMModel.sample fuel1 prob1 st trg src = some r1 →
      IBMModel.sample fuel2 prob2 st trg src = some r2 →
      r1.1 = r2.1 := by
  intro fuel1 fuel2 prob1 prob2 st trg src r1 r2 h1 h2
  unfold IBMModel.sample at h1 h2
  rcases Option.map_eq_some'.1 h1 with ⟨o1, ho1, rfl⟩
  rcases Option.map_eq_some'.1 h2 with ⟨o2, ho2, rfl⟩
  have hoeq : o1 = o2 := by
    refine ofoldl_congr_some ?_ ho1 ho2
    intro acc i u1 u2 hi hu1 hu2
    refine ofoldl_congr_some ?_ hu1 hu2
    intro s j0 v1 v2 hj hv1 hv2
    obtain ⟨sampled, tt, att⟩ := s
    simp only [Option.bind_eq_some, bind, instMonadOption, Option.pure_def,
      Option.some.injEq] at hv1 hv2
    rcases hv1 with ⟨w1, hw1, hv1⟩
    rcases hv2 with ⟨w2, hw2, hv2⟩
    rw [hw1] at hw2
    cases hw2
    obtain ⟨ai, tt', att'⟩ := w1
    rcases hv1 with ⟨b1, hb1, n1, hn1, hv1⟩
    rcases hv2 with ⟨b2, hb2, n2, hn2, hv2⟩
    cases hillclimb_some hb1
    cases hillclimb_some hb2
    rw [hn1] at hn2
    cases hn2
    rw [← hv1, ← hv2]
  subst hoeq
  rfl

/-- Witness for C9 at a concrete input: two different scoring functions and
fuel bounds, equal sample sets. -/
theorem sample_ignores_probability_witness :
    IBMModel.sample 1 probZero IBMModel.initState ["x"] [none] = some ([], IBMModel.initState) ∧
    IBMModel.sample 2 probOne IBMModel.initState ["x"] [none] = some ([], IBMModel.initState) ∧
    (([], IBMModel.initState) : List AlignmentInfo × IBMModel.State).1 =
      (([], IBMModel.initState) : List AlignmentInfo × IBMModel.State).1 :=
  ⟨rfl, rfl,
    sample_ignores_probability 1 2 probZero probOne IBMModel.initState ["x"] [none] _ _ rfl rfl⟩

/-! ## Table growth and observational preservation -/

theorem dfind_alistSet {κ β : Type} [DecidableEq κ] (d : List (κ × β)) (k k' : κ) (v : β) :
    dfind (alistSet d k v) k' = if k = k' then some v else dfind d k' := by
  induction d with
  | nil => rfl
  | cons p rest ih =>
    obtain ⟨k0, v0⟩ := p
    by_cases h0 : k0 = k
    · subst h0
      by_cases h1 : k0 = k' <;> simp [alistSet, dfind, h1]
    · by_cases h1 : k0 = k'
      · subst h1
        have h2 : ¬ k = k0 := fun h => h0 h.symm
        simp [alistSet, dfind, h0, h2]
      · simp [alistSet, dfind, h0, h1, ih]

theorem dread_alistSet {κ β : Type} [DecidableEq κ] (d : List (κ × β)) (k k' : κ) (v dflt : β) :
    dread (alistSet d k v) k' dflt = if k = k' then v else dread d k' dflt := by
  unfold dread
  rw [dfind_alistSet]
  by_cases h : k = k'
  · rw [if_pos h, if_pos h]
    rfl
  · rw [if_neg h, if_neg h]

theorem dget_read_pres {κ β γ : Type} [DecidableEq κ] (d : List (κ × β)) (k : κ) (dflt : β)
    (f : β → ℚ × β) (R : β → γ) (hf : ∀ b, R (f b).2 = R b) (k' : κ) :
    R (dread (dget d k dflt f).2 k' dflt) = R (dread d k' dflt) := by
  show R (dread (alistSet d k (f (dread d k dflt)).2) k' dflt) = _
  rw [dread_alistSet]
  by_cases h : k = k'
  · rw [if_pos h, hf]
    exact congrArg R (congrArg₂ _ h.symm rfl) ▸ rfl
  · rw [if_neg h]

theorem tget_pres (tt : IBMModel.TTable) (t : String) (s : Option String)
    (t' : String) (s' : Option String) :
    IBMModel.translationProb (IBMModel.tget tt t s).2 t' s' =
      IBMModel.translationProb tt t' s' := by
  unfold IBMModel.translationProb IBMModel.tget
  exact dget_read_pres tt t [] _ (fun inner => dread inner s' IBMModel.MIN_PROB)
    (fun inner => dget_read_pres inner s IBMModel.MIN_PROB _ id (fun v => rfl) s') t'

theorem aget_pres (att : IBMModel.ATable) (i j l m i' j' l' m' : Nat) :
    IBMModel.alignmentProb (IBMModel.aget att i j l m).2 i' j' l' m' =
      IBMModel.alignmentProb att i' j' l' m' := by
  unfold IBMModel.alignmentProb IBMModel.aget
  refine dget_read_pres att i [] _
    (fun d1 => dread (dread (dread d1 j' []) l' []) m' IBMModel.MIN_PROB) ?_ i'
  intro d1
  refine dget_read_pres d1 j [] _
    (fun d2 => dread (dread d2 l' []) m' IBMModel.MIN_PROB) ?_ j'
  intro d2
  refine dget_read_pres d2 l [] _ (fun d3 => dread d3 m' IBMModel.MIN_PROB) ?_ l'
  intro d3
  exact dget_read_pres d3 m IBMModel.MIN_PROB _ id (fun v => rfl) m'

theorem tpres_refl (tt : IBMModel.TTable) : tpres tt tt := fun _ _ => rfl

theorem apres_refl (att : IBMModel.ATable) : apres att att := fun _ _ _ _ => rfl

theorem tpres_trans {a b c : IBMModel.TTable} (h1 : tpres a b) (h2 : tpres b c) : tpres a c :=
  fun t s => (h2 t s).trans (h1 t s)

theorem apres_trans {a b c : IBMModel.ATable} (h1 : apres a b) (h2 : apres b c) : apres a c :=
  fun i j l m => (h2 i j l m).trans (h1 i j l m)

theorem foldl_rel {σ α : Type} (R : σ → σ → Prop) {f : σ → α → σ} {xs : List α}
    (htrans : ∀ a b c, R a b → R b c → R a c) (hrefl : ∀ s, R s s)
    (hstep : ∀ s x, x ∈ xs → R s (f s x)) :
    ∀ s0, R s0 (List.foldl f s0 xs) := by
  induction xs with
  | nil => intro s0; exact hrefl s0
  | cons x xs ih =>
    intro s0
    exact htrans _ _ _ (hstep s0 x (List.mem_cons_self _ _))
      (ih (fun s a ha => hstep s a (List.mem_cons_of_mem _ ha)) (f s0 x))

theorem sampleBestIStep_pres (trg : List String) (src : List (Option String)) (jj : Nat)
    (st : (ℚ × Nat) × IBMModel.TTable × IBMModel.ATable) (ii : Nat) :
    tpres st.2.1 (IBMModel.sampleBestIStep trg src jj st ii).2.1 ∧
      apres st.2.2 (IBMModel.sampleBestIStep trg src jj st ii).2.2 := by
  obtain ⟨⟨mx, bi⟩, tt0, att0⟩ := st
  unfold IBMModel.sampleBestIStep
  dsimp only
  constructor
  · split
    · exact fun t' s' => tget_pres tt0 _ _ t' s'
    · exact fun t' s' => tget_pres tt0 _ _ t' s'
  · split
    · exact fun i' j' l' m' => aget_pres att0 _ _ _ _ i' j' l' m'
    · exact fun i' j' l' m' => aget_pres att0 _ _ _ _ i' j' l' m'

theorem sampleBestI_pres (tt : IBMModel.TTable) (att : IBMModel.ATable)
    (trg : List String) (src : List (Option String)) (jj : Nat) :
    tpres tt (IBMModel.sampleBestI tt att trg src jj).2.1 ∧
      apres att (IBMModel.sampleBestI tt att trg src jj).2.2 :=
  foldl_rel
    (fun s s' => tpres s.2.1 s'.2.1 ∧ apres s.2.2 s'.2.2)
    (by
      intro a b c hab hbc
      exact ⟨tpres_trans hab.1 hbc.1, apres_trans hab.2 hbc.2⟩)
    (by
      intro s
      exact ⟨tpres_refl _, apres_refl _⟩)
    (by
      intro s x hx
      exact sampleBestIStep_pres trg src jj s x)
    ((IBMModel.MIN_PROB, 1), tt, att)

theorem sampleSeed_step_pres (trg : List String) (src : List (Option String)) (j : Nat)
    (s : List Nat × List Int × IBMModel.TTable × IBMModel.ATable) (x : Nat)
    (r : List Nat × List Int × IBMModel.TTable × IBMModel.ATable)
    (hr : (match s with
      | (al, fert, tt, att) =>
        if x + 1 ≠ j then
          match IBMModel.sampleBestI tt att trg src (x + 1) with
          | ((_, best_i), tt', att') => do
            let fert' ← listIncr? fert best_i 1
            pure (al.set (x + 1) best_i, fert', tt', att')
        else pure (al, fert, tt, att)) = some r) :
    tpres s.2.2.1 r.2.2.1 ∧ apres s.2.2.2 r.2.2.2 := by
  obtain ⟨al, fert, tt0, att0⟩ := s
  dsimp only at hr
  by_cases hxj : x + 1 ≠ j
  · rw [if_pos hxj] at hr
    rcases hsb : IBMModel.sampleBestI tt0 att0 trg src (x + 1) with ⟨⟨q, bi⟩, tt1, att1⟩
    rw [hsb] at hr
    simp only [Option.bind_eq_some, bind, instMonadOption, Option.pure_def,
      Option.some.injEq] at hr
    rcases hr with ⟨fert', hf, rfl⟩
    have hp := sampleBestI_pres tt0 att0 trg src (x + 1)
    rw [hsb] at hp
    exact hp
  · rw [if_neg hxj] at hr
    cases hr
    exact ⟨tpres_refl _, apres_refl _⟩

theorem sampleSeed_pres {tt tt' : IBMModel.TTable} {att att' : IBMModel.ATable}
    {trg : List String} {src : List (Option String)} {i j : Nat} {ai : AlignmentInfo}
    (h : IBMModel.sampleSeed tt att trg src i j = some (ai, tt', att')) :
    tpres tt tt' ∧ apres att att' := by
  unfold IBMModel.sampleSeed at h
  rcases Option.map_eq_some'.1 h with ⟨o, ho, heq⟩
  obtain ⟨al, fert, tto, atto⟩ := o
  simp only [Prod.mk.injEq] at heq
  obtain ⟨h1, h2, h3⟩ := heq
  subst h2
  subst h3
  exact ofoldl_rel
    (fun s s' => tpres s.2.2.1 s'.2.2.1 ∧ apres s.2.2.2 s'.2.2.2)
    (by
      intro s
      exact ⟨tpres_refl _, apres_refl _⟩)
    (by
      intro a b c hab hbc
      exact ⟨tpres_trans hab.1 hbc.1, apres_trans hab.2 hbc.2⟩)
    (by
      intro s x r hx hr
      exact sampleSeed_step_pres trg src j s x r hr)
    ho

/-- C3 (amended): `sample` never changes the fertility table or `p1`, and
never changes any *value* observable through table lookups: the translation
and alignment defaultdicts grow only by vivifying queried missing keys with
the `MIN_PROB` default, so every lookup before and after a call answers the
same.  (The claim's stronger clause — unchanged key sets — fails, see the
counterexample `sample_grows_translation_table`.) -/
theorem sample_preserves_lookups_fertility_p1 :
    ∀ (fuel : Nat) (prob : AlignmentInfo → ℚ) (st : IBMModel.State)
      (trg : List String) (src : List (Option String))
      (ns : List AlignmentInfo) (st' : IBMModel.State),
      IBMModel.sample fuel prob st trg src = some (ns, st') →
      st'.fertility_table = st.fertility_table ∧ st'.p1 = st.p1 ∧
      (∀ t s, IBMModel.translationProb st'.translation_table t s =
        IBMModel.translationProb st.translation_table t s) ∧
      (∀ i j l m, IBMModel.alignmentProb st'.alignment_table i j l m =
        IBMModel.alignmentProb st.alignment_table i j l m) := by
  intro fuel prob st trg src ns st' h
  unfold IBMModel.sample at h
  rcases Option.map_eq_some'.1 h with ⟨o, ho, heq⟩
  obtain ⟨sampled, tto, atto⟩ := o
  dsimp only at heq
  simp only [Prod.mk.injEq] at heq
  obtain ⟨h1, h2⟩ := heq
  subst h2
  have hrel : tpres st.translation_table tto ∧ apres st.alignment_table atto := by
    refine ofoldl_rel
      (fun (s s' : List AlignmentInfo × IBMModel.TTable × IBMModel.ATable) =>
        tpres s.2.1 s'.2.1 ∧ apres s.2.2 s'.2.2)
      (by
        intro s
        exact ⟨tpres_refl _, apres_refl _⟩)
      (by
        intro a b c hab hbc
        exact ⟨tpres_trans hab.1 hbc.1, apres_trans hab.2 hbc.2⟩)
      ?_ ho
    intro acc i u hi hu
    refine ofoldl_rel
      (fun (s s' : List AlignmentInfo × IBMModel.TTable × IBMModel.ATable) =>
        tpres s.2.1 s'.2.1 ∧ apres s.2.2 s'.2.2)
      (by
        intro s
        exact ⟨tpres_refl _, apres_refl _⟩)
      (by
        intro a b c hab hbc
        exact ⟨tpres_trans hab.1 hbc.1, apres_trans hab.2 hbc.2⟩)
      ?_ hu
    intro s j0 v hj hv
    obtain ⟨sampled0, tt0, att0⟩ := s
    dsimp only at hv
    simp only [Option.bind_eq_some, bind, instMonadOption, Option.pure_def,
      Option.some.injEq] at hv
    rcases hv with ⟨w, hw, hv⟩
    obtain ⟨ai, tt1, att1⟩ := w
    rcases hv with ⟨b1, hb1, n1, hn1, hv⟩
    subst hv
    exact sampleSeed_pres hw
  refine ⟨rfl, rfl, ?_, ?_⟩
  · exact hrel.1
  · exact hrel.2

/-- C3 counterexample: reading a Python `defaultdict` inserts missing keys,
so `sample` does mutate the translation table's key set: on a successful run
from the freshly initialised model the table afterwards is not the empty
table it was before the call. -/
theorem sample_grows_translation_table :
    (IBMModel.sample 2 probZero IBMModel.initState ["x", "y"] [none, some "a"]).map
      (fun r => decide (r.2.translation_table = IBMModel.initState.translation_table)) =
      some false := by
  have hc : ¬ (IBMModel.MIN_PROB * IBMModel.MIN_PROB > IBMModel.MIN_PROB) := by
    norm_num [IBMModel.MIN_PROB]
  have hz : ¬ ((0 : ℚ) > 0) := by norm_num
  simp [IBMModel.sample, IBMModel.sampleSeed, IBMModel.sampleBestI, IBMModel.sampleBestIStep,
    IBMModel.tget, IBMModel.aget, dget, dread, dfind, alistSet, ofoldl, listIncr?,
    List.range_succ, hc, hz, IBMModel.hillclimb, IBMModel.hillclimbLoop, IBMModel.neighboring,
    IBMModel.moveLoop, IBMModel.swapLoop, IBMModel.moveNeighbor, IBMModel.swapNeighbor,
    setAdd, setUpdate, probZero, AlignmentInfo.eqA, IBMModel.initState]

/-- Witness for the amended C3 at a concrete input. -/
theorem sample_preserves_lookups_fertility_p1_witness :
    IBMModel.sample 1 probZero IBMModel.initState ["x"] [none] =
      some ([], IBMModel.initState) ∧
    IBMModel.initState.fertility_table = IBMModel.initState.fertility_table ∧
    IBMModel.initState.p1 = IBMModel.initState.p1 ∧
    IBMModel.translationProb IBMModel.initState.translation_table "q" none =
      IBMModel.translationProb IBMModel.initState.translation_table "q" none ∧
    IBMModel.alignmentProb IBMModel.initState.alignment_table 0 1 2 3 =
      IBMModel.alignmentProb IBMModel.initState.alignment_table 0 1 2 3 :=
  ⟨rfl,
    (sample_preserves_lookups_fertility_p1 1 probZero IBMModel.initState ["x"] [none] []
      IBMModel.initState rfl).1,
    (sample_preserves_lookups_fertility_p1 1 probZero IBMModel.initState ["x"] [none] []
      IBMModel.initState rfl).2.1,
    (sample_preserves_lookups_fertility_p1 1 probZero IBMModel.initState ["x"] [none] []
      IBMModel.initState rfl).2.2.1 "q" none,
    (sample_preserves_lookups_fertility_p1 1 probZero IBMModel.initState ["x"] [none] []
      IBMModel.initState rfl).2.2.2 0 1 2 3⟩

/-! ## Fertility counting -/

theorem countIn_append (al : List Nat) (ps qs : List Nat) (k : Nat) :
    countIn al (ps ++ qs) k = countIn al ps k + countIn al qs k := by
  unfold countIn
  rw [List.filter_append, List.length_append]
  push_cast
  ring

theorem countIn_congr {al al' : List Nat} {ps : List Nat} {k : Nat}
    (h : ∀ p ∈ ps, al'.get? p = al.get? p) :
    countIn al' ps k = countIn al ps k := by
  unfold countIn
  rw [List.filter_congr fun p hp => by rw [h p hp]]

theorem countIn_cons (al : List Nat) (p : Nat) (ps : List Nat) (k : Nat) :
    countIn al (p :: ps) k =
      (if al.get? p = some k then 1 else 0) + countIn al ps k := by
  unfold countIn
  rw [List.filter_cons]
  by_cases h : al.get? p = some k
  · have hb : (al.get? p == some k) = true := beq_iff_eq.mpr h
    rw [if_pos hb, List.length_cons, if_pos h]
    push_cast
    ring
  · have hb : ¬ ((al.get? p == some k) = true) := fun hh => h (beq_iff_eq.mp hh)
    rw [if_neg hb, if_neg h]
    push_cast
    ring

theorem countIn_perm {ps qs : List Nat} (h : ps.Perm qs) (al : List Nat) (k : Nat) :
    countIn al ps k = countIn al qs k := by
  unfold countIn
  rw [← List.countP_eq_length_filter, ← List.countP_eq_length_filter, h.countP_eq]

theorem countIn_set {al ps : List Nat} (hnd : ps.Nodup) {j : Nat}
    (hj : j ∈ ps) (hlen : j < al.length) (i k : Nat) :
    countIn (al.set j i) ps k =
      countIn al ps k + (if i = k then 1 else 0) -
        (if al.get? j = some k then 1 else 0) := by
  have hperm : ps.Perm (j :: ps.erase j) := List.perm_cons_erase hj
  rw [countIn_perm hperm (al.set j i) k, countIn_perm hperm al k, countIn_cons, countIn_cons]
  have h1 : (al.set j i).get? j = some i := List.get?_set_eq_of_lt _ hlen
  rw [h1]
  have h2 : countIn (al.set j i) (ps.erase j) k = countIn al (ps.erase j) k := by
    apply countIn_congr
    intro p hp
    have hpj : p ≠ j := ((List.Nodup.mem_erase_iff hnd).1 hp).1
    exact List.get?_set_ne _ _ fun hh => hpj hh.symm
  rw [h2]
  by_cases hik : i = k <;> by_cases hjk : al.get? j = some k <;> simp [hik, hjk] <;> ring

theorem targetPositions_nodup (m : Nat) : (targetPositions m).Nodup :=
  List.Nodup.map (fun x y h => Nat.succ_injective h) (List.nodup_range m)

theorem targetPositions_mem {j0 m : Nat} (h : j0 < m) : j0 + 1 ∈ targetPositions m :=
  List.mem_map.2 ⟨j0, List.mem_range.2 h, rfl⟩

theorem get?_set_cases (xs : List Int) (i : Nat) (w : Int) (k : Nat) :
    (xs.set i w).get? k = if k = i ∧ i < xs.length then some w else xs.get? k := by
  by_cases hk : k = i
  · subst hk
    by_cases hl : k < xs.length
    · rw [List.get?_set_eq_of_lt _ hl, if_pos ⟨rfl, hl⟩]
    · rw [if_neg fun h => hl h.2, List.set_eq_of_length_le (Nat.le_of_not_lt hl)]
  · rw [if_neg fun h => hk h.1, List.get?_set_ne _ _ fun h => hk h.symm]

theorem moveNeighbor_invariant {a n : AlignmentInfo} (hinv : fertilityInvariant a)
    {j0 i : Nat} (hj0 : j0 < a.trg_sentence.length)
    (hmn : IBMModel.moveNeighbor a (j0 + 1) i = some n) : fertilityInvariant n := by
  obtain ⟨hlen, hsum, hcnt⟩ := hinv
  rcases moveNeighbor_some hmn with ⟨old, f1, f2, hold, hf1, hf2, rfl⟩
  rcases listIncr?_some hf1 with ⟨vi, hvi, rfl⟩
  rcases listIncr?_some hf2 with ⟨vo, hvo, rfl⟩
  have hilt : i < a.fertility_of_i.length := (List.get?_eq_some.1 hvi).1
  have holt' : old < a.fertility_of_i.length := by
    have := (List.get?_eq_some.1 hvo).1
    simpa using this
  have hjlt : j0 + 1 < a.alignment.length := (List.get?_eq_some.1 hold).1
  have hvi' : vi = countIn a.alignment (targetPositions a.trg_sentence.length) i := by
    have h := hcnt i hilt
    rw [hvi] at h
    exact Option.some.inj h
  have hvo' : vo = if old = i then vi + 1
      else countIn a.alignment (targetPositions a.trg_sentence.length) old := by
    rw [get?_set_cases] at hvo
    by_cases hoi : old = i
    · rw [if_pos ⟨hoi, hilt⟩] at hvo
      rw [if_pos hoi]
      exact (Option.some.inj hvo).symm
    · rw [if_neg fun h => hoi h.1] at hvo
      rw [if_neg hoi]
      have h := hcnt old holt'
      rw [hvo] at h
      exact Option.some.inj h
  refine ⟨by simpa using hlen, ?_, ?_⟩
  · show ((a.fertility_of_i.set i (vi + 1)).set old (vo + -1)).sum = _
    rw [sum_set_of_get? (vo + -1) hvo, sum_set_of_get? (vi + 1) hvi]
    show _ = (a.trg_sentence.length : Int)
    rw [← hsum]
    ring
  · intro k hk
    have hk' : k < a.fertility_of_i.length := by simpa using hk
    have hck := hcnt k hk'
    show ((a.fertility_of_i.set i (vi + 1)).set old (vo + -1)).get? k =
      some (countIn ((a.alignment.set (j0 + 1) i)) (targetPositions a.trg_sentence.length) k)
    rw [countIn_set (targetPositions_nodup _) (targetPositions_mem hj0) hjlt, hold,
      get?_set_cases, get?_set_cases]
    simp only [Option.some.injEq, List.length_set]
    by_cases hko : k = old
    · subst hko
      rw [if_pos ⟨rfl, holt'⟩]
      by_cases hki : k = i
      · subst hki
        rw [if_pos rfl] at hvo'
        rw [hvo', hvi', if_pos rfl]
        congr 1
      · rw [if_neg hki] at hvo'
        rw [hvo', if_neg fun h => hki h.symm, if_pos rfl]
        congr 1
    · rw [if_neg fun h => hko h.1]
      by_cases hki : k = i
      · subst hki
        rw [if_pos ⟨rfl, hilt⟩, hvi', if_pos rfl, if_neg fun h => hko h.symm]
        congr 1
      · rw [if_neg fun h => hki h.1, hck, if_neg fun h => hki h.symm,
          if_neg fun h => hko h.symm]
        congr 1

theorem swapNeighbor_invariant {a n : AlignmentInfo} (hinv : fertilityInvariant a)
    {j0 oj0 : Nat} (hj0 : j0 < a.trg_sentence.length) (hoj0 : oj0 < a.trg_sentence.length)
    (hne : oj0 + 1 ≠ j0 + 1)
    (hsn : IBMModel.swapNeighbor a (j0 + 1) (oj0 + 1) = some n) :
    fertilityInvariant n := by
  obtain ⟨hlen, hsum, hcnt⟩ := hinv
  rcases swapNeighbor_some hsn with ⟨vj, voj, hvj, hvoj, rfl⟩
  have hjlt : j0 + 1 < a.alignment.length := (List.get?_eq_some.1 hvj).1
  have hojlt : oj0 + 1 < a.alignment.length := (List.get?_eq_some.1 hvoj).1
  refine ⟨hlen, hsum, ?_⟩
  intro k hk
  show a.fertility_of_i.get? k =
    some (countIn ((a.alignment.set (j0 + 1) voj).set (oj0 + 1) vj)
      (targetPositions a.trg_sentence.length) k)
  rw [hcnt k hk]
  have hnd := targetPositions_nodup a.trg_sentence.length
  have hmem1 : j0 + 1 ∈ targetPositions a.trg_sentence.length := targetPositions_mem hj0
  have hmem2 : oj0 + 1 ∈ targetPositions a.trg_sentence.length := targetPositions_mem hoj0
  have hlen2 : oj0 + 1 < (a.alignment.set (j0 + 1) voj).length := by simpa using hojlt
  have e : (a.alignment.set (j0 + 1) voj).get? (oj0 + 1) = some voj := by
    rw [List.get?_set_ne _ _ fun h => hne h.symm]
    exact hvoj
  rw [countIn_set hnd hmem2 hlen2 vj k, e, countIn_set hnd hmem1 hjlt voj k, hvj]
  simp only [Option.some.injEq]
  congr 1
  by_cases h1 : vj = k <;> by_cases h2 : voj = k <;> simp [h1, h2] <;> try ring

theorem neighboring_invariant {a : AlignmentInfo} {peg : Nat} {ns : List AlignmentInfo}
    (h : IBMModel.neighboring a peg = some ns) (hinv : fertilityInvariant a) :
    ∀ n ∈ ns, fertilityInvariant n := by
  intro n hn
  rcases neighboring_mem h n hn with ⟨j0, i, hj0, _, _, hmn⟩ |
    ⟨j0, oj0, hj0, hoj0, _, _, hne, hsn⟩
  · exact moveNeighbor_invariant hinv hj0 hmn
  · exact swapNeighbor_invariant hinv hj0 hoj0 hne hsn

theorem seedTracked_append_skip (j : Nat) (done : List Nat) (r : Nat) (hr : r + 1 = j) :
    seedTracked j (done ++ [r]) = seedTracked j done := by
  unfold seedTracked
  rw [List.filter_append]
  simp [hr]

theorem seedTracked_append (j : Nat) (done : List Nat) (r : Nat) (hr : r + 1 ≠ j) :
    seedTracked j (done ++ [r]) = seedTracked j done ++ [r + 1] := by
  unfold seedTracked
  rw [List.filter_append]
  simp [hr]

theorem seedTracked_not_mem {j : Nat} {done : List Nat} {r : Nat}
    (hr : r ∉ done) (hj : r + 1 ≠ j) : r + 1 ∉ seedTracked j done := by
  unfold seedTracked
  intro hmem
  rcases List.mem_cons.1 hmem with h | h
  · exact hj h
  · rcases List.mem_map.1 h with ⟨x, hx, hxe⟩
    have hxr : x = r := Nat.succ_injective hxe
    subst hxr
    exact hr (List.mem_filter.1 hx).1

theorem seedTracked_perm {j0 m : Nat} (h : j0 < m) :
    (seedTracked (j0 + 1) (List.range m)).Perm (targetPositions m) := by
  have hmem : j0 + 1 ∈ targetPositions m := targetPositions_mem h
  have hperm := List.perm_cons_erase hmem
  have hnd := targetPositions_nodup m
  have herase : (targetPositions m).erase (j0 + 1) =
      (targetPositions m).filter (fun y => y != j0 + 1) :=
    List.Nodup.erase_eq_filter hnd _
  have hfm : (targetPositions m).filter (fun y => y != j0 + 1) =
      ((List.range m).filter fun x => x + 1 != j0 + 1).map (fun x => x + 1) := by
    unfold targetPositions
    rw [List.filter_map]
    rfl
  have : seedTracked (j0 + 1) (List.range m) = (j0 + 1) :: (targetPositions m).erase (j0 + 1) := by
    unfold seedTracked
    rw [herase, hfm]
  rw [this]
  exact hperm.symm

theorem targetPositions_length (m : Nat) : (targetPositions m).length = m := by
  unfold targetPositions
  rw [List.length_map, List.length_range]

theorem sampleSeed_step_char {trg : List String} {src : List (Option String)} {j : Nat}
    {s out : List Nat × List Int × IBMModel.TTable × IBMModel.ATable} {jj0 : Nat}
    (h : (match s with
      | (al, fert, tt, att) =>
        if jj0 + 1 ≠ j then
          match IBMModel.sampleBestI tt att trg src (jj0 + 1) with
          | ((_, best_i), tt', att') => do
            let fert' ← listIncr? fert best_i 1
            pure (al.set (jj0 + 1) best_i, fert', tt', att')
        else pure (al, fert, tt, att)) = some out) :
    (jj0 + 1 = j ∧ out = s) ∨
    (jj0 + 1 ≠ j ∧ ∃ bi v tt' att', s.2.1.get? bi = some v ∧
      out = (s.1.set (jj0 + 1) bi, s.2.1.set bi (v + 1), tt', att')) := by
  obtain ⟨al, fert, tt0, att0⟩ := s
  dsimp only at h
  by_cases hxj : jj0 + 1 ≠ j
  · rw [if_pos hxj] at h
    rcases hsb : IBMModel.sampleBestI tt0 att0 trg src (jj0 + 1) with ⟨⟨q, bi⟩, tt1, att1⟩
    rw [hsb] at h
    simp only [Option.bind_eq_some, bind, instMonadOption, Option.pure_def,
      Option.some.injEq] at h
    rcases h with ⟨fert', hf, rfl⟩
    rcases listIncr?_some hf with ⟨v, hv, rfl⟩
    exact Or.inr ⟨hxj, bi, v, tt1, att1, hv, rfl⟩
  · rw [if_neg hxj] at h
    cases h
    exact Or.inl ⟨Not.imp_symm (fun hh => hh) hxj, rfl⟩

theorem seed_fold_inv {m srcLen : Nat} {j : Nat}
    {f : (List Nat × List Int × IBMModel.TTable × IBMModel.ATable) → Nat →
      Option (List Nat × List Int × IBMModel.TTable × IBMModel.ATable)}
    (hf : ∀ s jj0 out, f s jj0 = some out →
      (jj0 + 1 = j ∧ out = s) ∨ (jj0 + 1 ≠ j ∧ ∃ bi v tt' att', s.2.1.get? bi = some v ∧
        out = (s.1.set (jj0 + 1) bi, s.2.1.set bi (v + 1), tt', att'))) :
    ∀ (rng done : List Nat)
      (st out : List Nat × List Int × IBMModel.TTable × IBMModel.ATable),
      done ++ rng = List.range m →
      ofoldl f st rng = some out →
      st.1.length = m + 1 → st.2.1.length = srcLen →
      st.2.1.sum = ((seedTracked j done).length : Int) →
      (∀ k, k < st.2.1.length →
        st.2.1.get? k = some (countIn st.1 (seedTracked j done) k)) →
      out.1.length = m + 1 ∧ out.2.1.length = srcLen ∧
      out.2.1.sum = ((seedTracked j (done ++ rng)).length : Int) ∧
      (∀ k, k < out.2.1.length →
        out.2.1.get? k = some (countIn out.1 (seedTracked j (done ++ rng)) k)) := by
  intro rng
  induction rng with
  | nil =>
    intro done st out happ hfold h1 h2 h3 h4
    cases hfold
    exact ⟨h1, h2, by simpa using h3, by simpa using h4⟩
  | cons r rng ih =>
    intro done st out happ hfold h1 h2 h3 h4
    rw [ofoldl_cons] at hfold
    cases hst1 : f st r with
    | none => rw [hst1] at hfold; cases hfold
    | some st1 =>
      rw [hst1, Option.some_bind] at hfold
      have happ' : (done ++ [r]) ++ rng = List.range m := by
        rw [List.append_assoc]
        simpa using happ
      have hrec := ih (done ++ [r]) st1 out happ' hfold
      have hrm : r ∈ List.range m := by
        rw [← happ]
        exact List.mem_append.2 (Or.inr (List.mem_cons_self _ _))
      have hrlt : r < m := List.mem_range.1 hrm
      have hrnotdone : r ∉ done := by
        intro hrd
        have hnd : (done ++ r :: rng).Nodup := by
          rw [happ]
          exact List.nodup_range m
        exact (List.disjoint_of_nodup_append hnd) hrd (List.mem_cons_self _ _)
      rw [show done ++ r :: rng = (done ++ [r]) ++ rng by simp]
      rcases hf st r st1 hst1 with ⟨hrj, rfl⟩ | ⟨hrj, bi, v, tt1, att1, hbv, rfl⟩
      · -- pegged position: state unchanged, tracked unchanged
        have htr := seedTracked_append_skip j done r hrj
        refine hrec h1 h2 ?_ ?_
        · rw [htr]
          exact h3
        · rw [htr]
          exact h4
      · -- a real assignment
        have hbilt : bi < st.2.1.length := (List.get?_eq_some.1 hbv).1
        have htr := seedTracked_append j done r hrj
        have hnotmem : r + 1 ∉ seedTracked j done := seedTracked_not_mem hrnotdone hrj
        have hr1lt : r + 1 < st.1.length := by
          rw [h1]
          omega
        have hcongr : ∀ k, countIn (st.1.set (r + 1) bi) (seedTracked j done) k =
            countIn st.1 (seedTracked j done) k := by
          intro k
          apply countIn_congr
          intro p hp
          have hpne : p ≠ r + 1 := fun hh => hnotmem (hh ▸ hp)
          exact List.get?_set_ne _ _ fun hh => hpne hh.symm
        have hget : (st.1.set (r + 1) bi).get? (r + 1) = some bi :=
          List.get?_set_eq_of_lt _ hr1lt
        refine hrec (by simpa using h1) (by simpa using h2) ?_ ?_
        · -- sum
          show (st.2.1.set bi (v + 1)).sum = _
          rw [sum_set_of_get? (v + 1) hbv, htr, h3, List.length_append]
          simp only [List.length_cons, List.length_nil]
          push_cast
          ring
        · -- counts
          intro k hk
          have hk' : k < st.2.1.length := by simpa using hk
          rw [htr]
          show (st.2.1.set bi (v + 1)).get? k =
            some (countIn (st.1.set (r + 1) bi) (seedTracked j done ++ [r + 1]) k)
          rw [countIn_append, countIn_cons, hcongr k, hget]
          rw [get?_set_cases]
          by_cases hkbi : k = bi
          · subst hkbi
            rw [if_pos ⟨rfl, hbilt⟩]
            have hveq : v = countIn st.1 (seedTracked j done) k := by
              have hh := h4 k hk'
              rw [hbv] at hh
              exact Option.some.inj hh
            rw [hveq, if_pos rfl]
            congr 1
          · rw [if_neg fun hh => hkbi hh.1, h4 k hk',
              if_neg fun hh => hkbi (Option.some.inj hh).symm]
            congr 1

theorem get?_replicate_set_one {n : Nat} {i k : Nat} (hk : k < n) :
    ((List.replicate n (0 : Int)).set i 1).get? k = some (if k = i ∧ i < n then 1 else 0) := by
  rw [get?_set_cases]
  by_cases h : k = i ∧ i < (List.replicate n (0 : Int)).length
  · rw [if_pos h, if_pos (by simpa using h)]
  · rw [if_neg h, if_neg (by simpa using h)]
    rw [List.get?_eq_getElem?, List.getElem?_replicate, if_pos hk]

theorem sampleSeed_invariant {tt tt' : IBMModel.TTable} {att att' : IBMModel.ATable}
    {trg : List String} {src : List (Option String)} {i j0 : Nat} {ai : AlignmentInfo}
    (hi : i < src.length) (hj : j0 < trg.length)
    (h : IBMModel.sampleSeed tt att trg src i (j0 + 1) = some (ai, tt', att')) :
    fertilityInvariant ai := by
  unfold IBMModel.sampleSeed at h
  rcases Option.map_eq_some'.1 h with ⟨o, ho, heq⟩
  obtain ⟨al, fert, tto, atto⟩ := o
  dsimp only at heq
  simp only [Prod.mk.injEq] at heq
  obtain ⟨h1, h2, h3⟩ := heq
  have halm : ((List.replicate (trg.length + 1) 0).set (j0 + 1) i).length = trg.length + 1 := by
    simp
  have hflm : ((List.replicate src.length (0 : Int)).set i 1).length = src.length := by
    simp
  have hj1lt : j0 + 1 < trg.length + 1 := by omega
  have hbase_sum : ((List.replicate src.length (0 : Int)).set i 1).sum =
      ((seedTracked (j0 + 1) []).length : Int) := by
    have hz : (List.replicate src.length (0 : Int)).get? i = some 0 := by
      rw [List.get?_eq_getElem?, List.getElem?_replicate, if_pos hi]
    rw [sum_set_of_get? 1 hz]
    simp [seedTracked, List.sum_replicate]
  have hbase_cnt : ∀ k, k < ((List.replicate src.length (0 : Int)).set i 1).length →
      ((List.replicate src.length (0 : Int)).set i 1).get? k =
        some (countIn ((List.replicate (trg.length + 1) 0).set (j0 + 1) i)
          (seedTracked (j0 + 1) []) k) := by
    intro k hk
    have hk' : k < src.length := by simpa using hk
    rw [get?_replicate_set_one hk']
    have hgj : ((List.replicate (trg.length + 1) 0).set (j0 + 1) i).get? (j0 + 1) = some i := by
      apply List.get?_set_eq_of_lt
      simpa using hj1lt
    show _ = some (countIn _ [j0 + 1] k)
    rw [countIn_cons, hgj]
    by_cases hki : k = i
    · subst hki
      rw [if_pos ⟨rfl, hi⟩, if_pos rfl]
      rfl
    · rw [if_neg fun hh => hki hh.1, if_neg fun hh => hki (Option.some.inj hh).symm]
      rfl
  have hmain := seed_fold_inv
    (fun s jj0 out hstep => sampleSeed_step_char hstep)
    (List.range trg.length) [] _ (al, fert, tto, atto) rfl ho halm hflm hbase_sum hbase_cnt
  obtain ⟨hout1, hout2, hout3, hout4⟩ := hmain
  subst h1
  have hperm := seedTracked_perm hj
  refine ⟨?_, ?_, ?_⟩
  · show fert.length = src.length
    simpa using hout2
  · show fert.sum = _
    rw [hout3]
    have hlen := hperm.length_eq
    rw [List.nil_append] at *
    rw [hlen, targetPositions_length]
  · intro k hk
    show fert.get? k = some (countIn al (targetPositions trg.length) k)
    have hk2 : k < fert.length := hk
    have := hout4 k (by simpa using hk2)
    rw [List.nil_append] at this
    rw [this]
    exact congrArg some (countIn_perm hperm al k)

/-- C4: every `AlignmentInfo` in the set returned by `sample`, and every
neighbor generated by `neighboring` from an input satisfying the fertility
invariant, satisfies the fertility invariant: one fertility slot per source
position, the slots sum to the target length `m`, and slot `i` counts the
target positions `1..m` aligned to `i`. -/
theorem generated_alignments_fertility_invariant :
    (∀ (fuel : Nat) (prob : AlignmentInfo → ℚ) (st : IBMModel.State)
        (trg : List String) (src : List (Option String))
        (ns : List AlignmentInfo) (st' : IBMModel.State),
      IBMModel.sample fuel prob st trg src = some (ns, st') →
      ∀ ai ∈ ns, fertilityInvariant ai) ∧
    (∀ (a : AlignmentInfo) (peg : Nat) (ns : List AlignmentInfo),
      IBMModel.neighboring a peg = some ns → fertilityInvariant a →
      ∀ n ∈ ns, fertilityInvariant n) := by
  constructor
  · intro fuel prob st trg src ns st' h
    unfold IBMModel.sample at h
    rcases Option.map_eq_some'.1 h with ⟨o, ho, heq⟩
    obtain ⟨sampled, tto, atto⟩ := o
    dsimp only at heq
    simp only [Prod.mk.injEq] at heq
    obtain ⟨h1, h2⟩ := heq
    subst h1
    have hrel := ofoldl_rel
      (fun (s s' : List AlignmentInfo × IBMModel.TTable × IBMModel.ATable) =>
        (∀ ai ∈ s.1, fertilityInvariant ai) → (∀ ai ∈ s'.1, fertilityInvariant ai))
      (by
        intro s hs
        exact hs)
      (by
        intro a b c hab hbc hinv
        exact hbc (hab hinv))
      ?_ ho
    · exact hrel fun ai hai => absurd hai (List.not_mem_nil ai)
    · intro acc i u hi hu hacc
      refine ofoldl_rel
        (fun (s s' : List AlignmentInfo × IBMModel.TTable × IBMModel.ATable) =>
          (∀ ai ∈ s.1, fertilityInvariant ai) → (∀ ai ∈ s'.1, fertilityInvariant ai))
        (by
          intro s hs
          exact hs)
        (by
          intro a b c hab hbc hinv
          exact hbc (hab hinv))
        ?_ hu hacc
      intro s2 j0 r hj0 hr h2acc
      obtain ⟨sampled0, tt0, att0⟩ := s2
      dsimp only at hr
      simp only [Option.bind_eq_some, bind, instMonadOption, Option.pure_def,
        Option.some.injEq] at hr
      rcases hr with ⟨w, hw, hr⟩
      obtain ⟨ai, tt1, att1⟩ := w
      rcases hr with ⟨b1, hb1, n1, hn1, hr⟩
      subst hr
      cases hillclimb_some hb1
      have hinv_ai := sampleSeed_invariant (List.mem_range.1 hi) (List.mem_range.1 hj0) hw
      intro x hx
      rcases mem_setUpdate hx with hxs | hxn
      · exact h2acc x hxs
      · exact neighboring_invariant hn1 hinv_ai x hxn
  · intro a peg ns h hinv
    exact neighboring_invariant h hinv

/-- Witness for C4 at a concrete input. -/
theorem generated_alignments_fertility_invariant_witness :
    IBMModel.neighboring wSeed 1 = some [wSeed, wMoved] ∧
    fertilityInvariant wSeed ∧ fertilityInvariant wMoved :=
  ⟨by decide, by decide,
    generated_alignments_fertility_invariant.2 wSeed 1 [wSeed, wMoved] (by decide) (by decide)
      wMoved (by decide)⟩
